import Mathlib
/-!
Verification development for the core of a segmented append-only commit log
(store / index / segment).  The Go source is shallowly embedded: byte slices
become `List Nat` (each element a byte value), `uint64`/`uint32`/`int64`
arithmetic is `Nat`/`Int` with explicit reduction modulo `2 ^ 64` / `2 ^ 32`
where the source's machine arithmetic can wrap or truncate, and fallible
operations return `Except Unit` (the source signals every index/store
boundary condition with the same sentinel error, `io.EOF`, so a unit error
suffices).  File handles, the buffered writer and the memory map are
represented by the logical byte content they carry: the store read path
flushes the buffer before reading, so `store.data` models flushed plus
buffered bytes, and `index.mmap` models the mapped byte region.
-/
/-- Big-endian byte encoding of `n` in `w` bytes, least significant byte
last, as produced by the source's `binary.BigEndian.PutUint32/PutUint64`. -/
def beBytes : Nat → Nat → List Nat
  | 0, _ => []
  | w + 1, n => beBytes w (n / 256) ++ [n % 256]

/-- Big-endian value of a byte list, as computed by the source's
`binary.BigEndian.Uint32/Uint64`. -/
def beVal (l : List Nat) : Nat :=
  l.foldl (fun a b => a * 256 + b) 0

/-- The sub-list of `l` of length `len` starting at `pos` (Go slicing
`l[pos : pos+len]`). -/
def byteSlice (l : List Nat) (pos len : Nat) : List Nat :=
  (l.drop pos).take len

/-- Overwrite the bytes of `l` at `[pos, pos + bs.length)` with `bs`
(Go writing into a byteSlice of a larger buffer). -/
def writeBytes (l : List Nat) (pos : Nat) (bs : List Nat) : List Nat :=
  l.take pos ++ bs ++ l.drop (pos + bs.length)

/-- Go `uint64` subtraction `a - b`, which wraps modulo `2 ^ 64`. -/
def u64sub (a b : Nat) : Nat :=
  (a % 2 ^ 64 + (2 ^ 64 - b % 2 ^ 64)) % 2 ^ 64

/-- Go conversion `int64(n)` of a `uint64` value: reinterpret the low
64 bits as a two's-complement signed integer. -/
def toInt64 (n : Nat) : Int :=
  if n % 2 ^ 64 < 2 ^ 63 then ((n % 2 ^ 64 : Nat) : Int)
  else ((n % 2 ^ 64 : Nat) : Int) - 2 ^ 64

/-- Width in bytes of the relative-offset field of an index entry
(source variable `offWidth`). -/
def offWidth : Nat := 4

/-- Width in bytes of the store-position field of an index entry
(source variable `posWidth`). -/
def posWidth : Nat := 8

/-- Width in bytes of one index entry (source variable `entWidth`). -/
def entWidth : Nat := offWidth + posWidth

/-- Number of bytes used to store a record's length prefix in the store
(source constant `lenWidth`). -/
def lenWidth : Nat := 8

/-- Modelled from the spec: the segment configuration.  The source reads
`c.Segment.MaxStoreBytes`, `c.Segment.MaxIndexBytes` and
`c.Segment.InitialOffset`; the `Config` struct itself is repository code
that is not under src/.  Spec section 6 enumerates exactly these three
`uint64` fields. -/
structure Config where
  MaxStoreBytes : Nat
  MaxIndexBytes : Nat
  InitialOffset : Nat
  deriving DecidableEq, Repr

/-- Modelled from the spec: the record type.  The source uses the
repository's `api/v1` `Record` protobuf message, which is not under src/;
spec section 3 describes it as an opaque byte payload `value` plus a 64-bit
unsigned `offset`. -/
structure Record where
  Value : List Nat
  Offset : Nat
  deriving DecidableEq, Repr

/-- The store: one append-only file with a buffered writer.  `data` is the
logical file content (flushed plus buffered bytes — the source's read path
flushes before reading), `size` the source's cumulative byte counter. -/
structure store where
  data : List Nat
  size : Nat
  deriving DecidableEq, Repr

/-- The index: a memory-mapped byte region `mmap` and the number `size` of
bytes currently in use.  The source also holds the backing file handle,
which is pure I/O and carries no further logical state. -/
structure index where
  mmap : List Nat
  size : Nat
  deriving DecidableEq, Repr

/-- A segment: one store plus one index, with the base offset of its first
record and the absolute offset the next append will receive. -/
structure Segment where
  store : store
  index : index
  baseOffset : Nat
  nextOffset : Nat
  config : Config
  deriving DecidableEq, Repr

/-- Source `index.Read`: empty index fails; `-1` selects the last
entry via the wrapping `uint64` computation `size/entWidth - 1`; any other
argument is truncated to `uint32`; the entry must lie inside the in-use
`size` bytes; both fields decode big-endian. -/
def index.Read (i : index) (inp : Int) : Except Unit (Nat × Nat) :=
  if i.size = 0 then .error ()
  else
    let out : Nat :=
      if inp = -1 then u64sub (i.size / entWidth) 1 % 2 ^ 32
      else (inp % (2 ^ 32 : Int)).toNat
    let pos := out * entWidth
    if i.size < pos + entWidth then .error ()
    else .ok (beVal (byteSlice i.mmap pos offWidth),
              beVal (byteSlice i.mmap (pos + offWidth) posWidth))

/-- Source `index.Write`: fails (leaving the state untouched) when
the mapped region has no room for another entry; otherwise writes the
4-byte relative offset and the 8-byte position big-endian at
`[size, size+entWidth)` and advances `size`.  The source receives `off` as
`uint32` and `pos` as `uint64`; the reductions modulo `2 ^ 32` / `2 ^ 64`
perform the caller-side conversions. -/
def index.Write (i : index) (off pos : Nat) : Except Unit Unit × index :=
  if i.mmap.length < i.size + entWidth then (.error (), i)
  else
    (.ok (), { i with
      mmap := writeBytes i.mmap i.size
        (beBytes offWidth (off % 2 ^ 32) ++ beBytes posWidth (pos % 2 ^ 64)),
      size := i.size + entWidth })

/-- Source `store.Append`: remembers `pos = size`, appends the
8-byte big-endian length prefix followed by the payload, advances `size` by
`lenWidth + len p`, and returns the bytes written and the position.  The
in-memory writes of the buffered writer cannot fail. -/
def store.Append (s : store) (p : List Nat) : Nat × Nat × store :=
  (lenWidth + p.length, s.size,
    { s with
      data := s.data ++ beBytes lenWidth (p.length % 2 ^ 64) ++ p,
      size := s.size + lenWidth + p.length })

/-- Source `store.Read`: flushes the buffer (a no-op on the
logical content), reads the 8-byte length prefix at `int64(pos)`, then that
many bytes at `int64(pos + lenWidth)`.  `ReadAt` fails on a negative offset
and on a short read. -/
def store.Read (s : store) (pos : Nat) : Except Unit (List Nat) :=
  if toInt64 pos < 0 then .error ()
  else if s.data.length < pos + lenWidth then .error ()
  else
    let sz := beVal (byteSlice s.data pos lenWidth)
    if toInt64 (pos + lenWidth) < 0 then .error ()
    else if s.data.length < pos + lenWidth + sz then .error ()
    else .ok (byteSlice s.data (pos + lenWidth) sz)

/-- Modelled from the spec: record serialization.  The source calls
`proto.Marshal` on the repository's `api/v1` `Record` message (not under
src/); spec section 6 describes the payload as a serialized record with the
two fields `value` and `offset`.  We model the encoding as the 8-byte
big-endian offset followed by the value bytes, an injective encoding whose
inverse is `Unmarshal`. -/
def Marshal (r : Record) : List Nat :=
  beBytes 8 (r.Offset % 2 ^ 64) ++ r.Value

/-- Modelled from the spec: inverse of `Marshal` (the source's
`proto.Unmarshal`). -/
def Unmarshal (p : List Nat) : Record :=
  { Value := p.drop 8, Offset := beVal (p.take 8) }

/-- Source `segment.Append`: stamps the record with `nextOffset`,
marshals it, appends the bytes to the store, writes the index entry for the
`uint32`-truncated relative offset, and only on success advances
`nextOffset` (a wrapping `uint64` increment).  The pair returned carries
the result together with the post-call segment state (the source mutates
the store before the index write can fail). -/
def Segment.Append (s : Segment) (rec : Record) : Except Unit Nat × Segment :=
  let cur := s.nextOffset
  let p := Marshal { rec with Offset := cur }
  let res := store.Append s.store p
  match index.Write s.index (u64sub s.nextOffset s.baseOffset) res.2.1 with
  | (.error e, idx) => (.error e, { s with store := res.2.2, index := idx })
  | (.ok _, idx) =>
      (.ok cur, { s with
                    store := res.2.2,
                    index := idx,
                    nextOffset := (s.nextOffset + 1) % 2 ^ 64 })

/-- Source `segment.Read`: translate the absolute offset to a
relative one with wrapping `uint64` subtraction, convert to `int64`, look
up the index entry, and read the record bytes from the store at the stored
position. -/
def Segment.Read (s : Segment) (off : Nat) : Except Unit Record :=
  match index.Read s.index (toInt64 (u64sub off s.baseOffset)) with
  | .error e => .error e
  | .ok (_, pos) =>
      match store.Read s.store pos with
      | .error e => .error e
      | .ok p => .ok (Unmarshal p)

/-- Source `segment.IsMaxed`: the store or the index has reached
its configured limit. -/
def Segment.IsMaxed (s : Segment) : Bool :=
  decide (s.config.MaxStoreBytes ≤ s.store.size) ||
  decide (s.config.MaxIndexBytes ≤ s.index.size)

/-- The offset-seeding logic of the source's `newSegment`, applied to the
store and index states recovered from the opened files (`newStore` seeds
`store.size` from the file length; `newIndex` seeds `index.size` from the
original file length and maps the file after growing it to
`MaxIndexBytes`).  The file-system calls themselves (`os.OpenFile`,
`os.Truncate`, `gommap.Map`) are I/O and are represented by passing in the
resulting store and index states directly.  An empty (failed) `-1` read
seeds `nextOffset = baseOffset`; otherwise `nextOffset` is the wrapping
`uint64` sum `baseOffset + off + 1` for the relative offset `off` of the
entry the `-1` read returns. -/
def newSegment (st : store) (idx : index) (baseOffset : Nat) (c : Config) :
    Segment :=
  match index.Read idx (-1) with
  | .error _ =>
      { store := st, index := idx, baseOffset := baseOffset,
        nextOffset := baseOffset, config := c }
  | .ok (off, _) =>
      { store := st, index := idx, baseOffset := baseOffset,
        nextOffset := (baseOffset + off + 1) % 2 ^ 64, config := c }

/-- Source `nearestMultiple`, including its (unreachable, since
`j` is unsigned) negative branch. -/
def nearestMultiple (j k : Nat) : Nat :=
  if 0 ≤ j then j / k * k
  else (j - k + 1) / k * k

/-- Harness for sequences of appends: runs `segment.Append` over a list of
records, threading the segment state and collecting the returned offsets;
stops at the first failure. -/
def appendAll : Segment → List Record → Except Unit (List Nat) × Segment
  | s, [] => (.ok [], s)
  | s, r :: rs =>
    match Segment.Append s r with
    | (.error e, s1) => (.error e, s1)
    | (.ok o, s1) =>
      match appendAll s1 rs with
      | (.error e, s2) => (.error e, s2)
      | (.ok os, s2) => (.ok (o :: os), s2)

/-- The index read semantics exactly as claim C4 words them (a
specification written from the claim, to be compared with the source's
`index.Read`): empty-index error when `size = 0`; at `n = -1` the last
entry, entry number `size/12 - 1`; otherwise `n` itself is the entry
number, with an end-of-data error when `(n + 1) * 12 > size` and the two
big-endian fields at bytes `[n*12, n*12+12)` otherwise. -/
def indexReadClaimed (i : index) (n : Int) : Except Unit (Nat × Nat) :=
  if i.size = 0 then .error ()
  else if n = -1 then
    let e := i.size / 12 - 1
    .ok (beVal (byteSlice i.mmap (e * 12) 4),
         beVal (byteSlice i.mmap (e * 12 + 4) 8))
  else if (n + 1) * 12 > (i.size : Int) then .error ()
  else
    let e := n.toNat
    .ok (beVal (byteSlice i.mmap (e * 12) 4),
         beVal (byteSlice i.mmap (e * 12 + 4) 8))

/-- The index read semantics as amended: the entry number is `n` truncated
to `uint32` (`n mod 2^32`), and for `n = -1` it is `size/12 - 1` computed
with wrapping `uint64` subtraction and then truncated to `uint32`; the
end-of-data check and the field layout are as the claim states them. -/
def indexReadAmended (i : index) (n : Int) : Except Unit (Nat × Nat) :=
  if i.size = 0 then .error ()
  else
    let e : Nat :=
      if n = -1 then u64sub (i.size / 12) 1 % 2 ^ 32
      else (n % (2 ^ 32 : Int)).toNat
    if (e + 1) * 12 > i.size then .error ()
    else .ok (beVal (byteSlice i.mmap (e * 12) 4),
              beVal (byteSlice i.mmap (e * 12 + 4) 8))
/-- A small segment configuration used by the concrete test states below. -/
def cfgW : Config := ⟨1024, 1024, 0⟩

/-- A fresh empty segment with room for three index entries. -/
def segW : Segment := ⟨⟨[], 0⟩, ⟨List.replicate 36 0, 0⟩, 0, 0, cfgW⟩

/-- A sample record. -/
def recW : Record := ⟨[104], 7⟩

/-- A fresh empty segment whose base offset is the largest `uint64` value,
as produced by opening a log with `InitialOffset = 2^64 - 1`. -/
def segWrap : Segment :=
  ⟨⟨[], 0⟩, ⟨List.replicate 24 0, 0⟩, 2 ^ 64 - 1, 2 ^ 64 - 1, cfgW⟩

/-- A segment whose index map and `MaxIndexBytes` are 30 bytes (not a
multiple of the 12-byte entry width) holding two entries. -/
def seg30 : Segment :=
  ⟨⟨[], 0⟩, ⟨List.replicate 30 0, 24⟩, 0, 2, ⟨1000000, 30, 0⟩⟩

/-- A segment whose index map and `MaxIndexBytes` are 36 bytes, completely
full. -/
def seg36 : Segment :=
  ⟨⟨[], 0⟩, ⟨List.replicate 36 0, 36⟩, 0, 3, ⟨1000000, 36, 0⟩⟩

/-- A one-entry index whose entry stores relative offset 5 — the shape left
behind by a crash (zero padding read back as entries) or by a foreign file,
not by a clean append sequence. -/
def idxBad : index := ⟨beBytes 4 5 ++ beBytes 8 0, 12⟩

/-- A one-entry index whose entry stores relative offset 0, as written by a
single append from a fresh segment. -/
def idxOne : index := ⟨beBytes 4 0 ++ beBytes 8 0, 12⟩

theorem beBytes_length (w n : Nat) : (beBytes w n).length = w := by
  induction w generalizing n with
  | zero => rfl
  | succ w ih => simp [beBytes, ih]

theorem beVal_append_singleton (l : List Nat) (b : Nat) :
    beVal (l ++ [b]) = beVal l * 256 + b := by
  simp [beVal, List.foldl_append]

theorem beVal_beBytes (w n : Nat) : beVal (beBytes w n) = n % 256 ^ w := by
  induction w generalizing n with
  | zero => simp [beBytes, beVal, Nat.mod_one]
  | succ w ih =>
      rw [beBytes, beVal_append_singleton, ih]
      rw [pow_succ, mul_comm (256 ^ w) 256]
      have h1 : n % (256 * 256 ^ w) / 256 = n / 256 % 256 ^ w :=
        Nat.mod_mul_right_div_self n 256 (256 ^ w)
      have h2 : n % (256 * 256 ^ w) % 256 = n % 256 :=
        Nat.mod_mul_right_mod n 256 (256 ^ w)
      omega

theorem byteSlice_append (A B : List Nat) (pos k : Nat) (h : A.length = pos) :
    byteSlice (A ++ B) pos k = B.take k := by
  unfold byteSlice
  rw [List.drop_left' h]

theorem drop_writeBytes (l bs : List Nat) (pos : Nat) (h : pos ≤ l.length) :
    (writeBytes l pos bs).drop pos = bs ++ l.drop (pos + bs.length) := by
  unfold writeBytes
  rw [List.append_assoc]
  exact List.drop_left' (List.length_take_of_le h)

theorem take_writeBytes (l bs : List Nat) (pos : Nat) (h : pos ≤ l.length) :
    (writeBytes l pos bs).take pos = l.take pos := by
  unfold writeBytes
  rw [List.append_assoc]
  exact List.take_left' (List.length_take_of_le h)

theorem length_writeBytes (l bs : List Nat) (pos : Nat)
    (h : pos + bs.length ≤ l.length) :
    (writeBytes l pos bs).length = l.length := by
  simp only [writeBytes, List.length_append, List.length_take,
    List.length_drop]
  omega

theorem drop_after_writeBytes (l bs : List Nat) (pos : Nat)
    (h : pos ≤ l.length) :
    (writeBytes l pos bs).drop (pos + bs.length) = l.drop (pos + bs.length) := by
  unfold writeBytes
  have hlen : (l.take pos ++ bs).length = pos + bs.length := by
    simp only [List.length_append, List.length_take_of_le h]
  exact List.drop_left' hlen

theorem byteSlice_writeBytes_first (l b1 b2 : List Nat) (pos : Nat)
    (h : pos ≤ l.length) :
    byteSlice (writeBytes l pos (b1 ++ b2)) pos b1.length = b1 := by
  unfold byteSlice
  rw [drop_writeBytes l (b1 ++ b2) pos h, List.append_assoc]
  exact List.take_left' rfl

theorem byteSlice_writeBytes_second (l b1 b2 : List Nat) (pos : Nat)
    (h : pos ≤ l.length) :
    byteSlice (writeBytes l pos (b1 ++ b2)) (pos + b1.length) b2.length = b2 := by
  unfold byteSlice
  have hd : (writeBytes l pos (b1 ++ b2)).drop (pos + b1.length) =
      b2 ++ l.drop (pos + (b1 ++ b2).length) := by
    rw [← List.drop_drop, drop_writeBytes l (b1 ++ b2) pos h,
      List.append_assoc, List.drop_left' rfl]
  rw [hd]
  exact List.take_left' rfl

/-- C10: for every `uint64` pair `(j, k)` with `k > 0`, `nearestMultiple j k`
equals `(j / k) * k`, which is a multiple of `k`, is at most `j`, and is the
greatest multiple of `k` that is at most `j`; the branch of the source for
negative `j` is dead code because `j` is unsigned. -/
theorem C10_nearestMultiple_correct (j k : Nat) (hk : 0 < k) :
    nearestMultiple j k = j / k * k ∧
    k ∣ nearestMultiple j k ∧
    nearestMultiple j k ≤ j ∧
    ∀ m, k ∣ m → m ≤ j → m ≤ nearestMultiple j k := by
  have he : nearestMultiple j k = j / k * k := by
    simp [nearestMultiple]
  refine ⟨he, ?_, ?_, ?_⟩
  · rw [he]
    exact dvd_mul_left k (j / k)
  · rw [he]
    exact Nat.div_mul_le_self j k
  · intro m hm hle
    rw [he]
    obtain ⟨t, rfl⟩ := hm
    have ht : t ≤ j / k := (Nat.le_div_iff_mul_le hk).2 (by
      rw [mul_comm]
      exact hle)
    calc k * t = t * k := mul_comm k t
    _ ≤ j / k * k := Nat.mul_le_mul_right k ht

theorem C10_nearestMultiple_correct_witness :
    0 < 4 ∧ nearestMultiple 9 4 = 9 / 4 * 4 :=
  ⟨by decide, (C10_nearestMultiple_correct 9 4 (by decide)).1⟩

/-- C8: a (always successful, as the in-memory buffered writes cannot fail)
`store.Append s p` returns position `s.size` and byte count `8 + p.length`,
grows `size` by exactly `8 + p.length`, and appends the 8-byte big-endian
length prefix of `p` followed by `p` itself to the store contents. -/
theorem C8_store_append_post (s : store) (p : List Nat)
    (hp : p.length < 2 ^ 64) :
    (store.Append s p).2.1 = s.size ∧
    (store.Append s p).1 = 8 + p.length ∧
    (store.Append s p).2.2.size = s.size + (8 + p.length) ∧
    (store.Append s p).2.2.data = s.data ++ beBytes 8 p.length ++ p := by
  have hm : p.length % 2 ^ 64 = p.length := Nat.mod_eq_of_lt hp
  refine ⟨rfl, rfl, ?_, ?_⟩
  · simp only [store.Append, lenWidth]
    omega
  · simp only [store.Append, lenWidth, hm]

theorem C8_store_append_post_witness :
    ([1, 2, 3] : List Nat).length < 2 ^ 64 ∧
    (store.Append ⟨[9], 1⟩ [1, 2, 3]).2.2.data =
      [9] ++ beBytes 8 ([1, 2, 3] : List Nat).length ++ [1, 2, 3] :=
  ⟨by decide, (C8_store_append_post ⟨[9], 1⟩ [1, 2, 3] (by decide)).2.2.2⟩

theorem index_write_full (i : index) (off pos : Nat)
    (h : i.mmap.length < i.size + entWidth) :
    index.Write i off pos = (.error (), i) := by
  simp [index.Write, h]

theorem index_write_room (i : index) (off pos : Nat)
    (h : ¬ i.mmap.length < i.size + entWidth) :
    index.Write i off pos =
      (.ok (),
        { mmap :=
            writeBytes i.mmap i.size
              (beBytes offWidth (off % 2 ^ 32) ++
                beBytes posWidth (pos % 2 ^ 64)),
          size := i.size + entWidth }) := by
  simp [index.Write, h]

/-- C5: `index.Write i off pos` fails with the end-of-space error exactly
when `i.size + 12` exceeds the mapped length, and on failure leaves the
index state unchanged; on success it writes the 4-byte big-endian relative
offset and the 8-byte big-endian position at bytes `[size, size + 12)` of
the map, leaves all other mapped bytes and the mapped length unchanged, and
increments `size` by exactly 12. -/
theorem C5_index_write (i : index) (off pos : Nat)
    (hoff : off < 2 ^ 32) (hpos : pos < 2 ^ 64) :
    ((index.Write i off pos).1 = .error () ↔ i.mmap.length < i.size + 12) ∧
    ((index.Write i off pos).1 = .error () → (index.Write i off pos).2 = i) ∧
    ((index.Write i off pos).1 = .ok () →
      (index.Write i off pos).2.size = i.size + 12 ∧
      (index.Write i off pos).2.mmap.length = i.mmap.length ∧
      (index.Write i off pos).2.mmap.take i.size = i.mmap.take i.size ∧
      byteSlice (index.Write i off pos).2.mmap i.size 4 = beBytes 4 off ∧
      byteSlice (index.Write i off pos).2.mmap (i.size + 4) 8 =
        beBytes 8 pos ∧
      (index.Write i off pos).2.mmap.drop (i.size + 12) =
        i.mmap.drop (i.size + 12)) := by
  have hent : entWidth = 12 := rfl
  have hoff' : off % 2 ^ 32 = off := Nat.mod_eq_of_lt hoff
  have hpos' : pos % 2 ^ 64 = pos := Nat.mod_eq_of_lt hpos
  by_cases hfull : i.mmap.length < i.size + entWidth
  · rw [index_write_full i off pos hfull]
    rw [hent] at hfull
    refine ⟨by simpa using hfull, fun _ => rfl, fun hok => ?_⟩
    simp at hok
  · rw [index_write_room i off pos hfull]
    rw [hent] at hfull
    have hle : i.size + 12 ≤ i.mmap.length := by omega
    have hsize : i.size ≤ i.mmap.length := by omega
    have hb1 : (beBytes offWidth (off % 2 ^ 32)).length = 4 := by
      simp [beBytes_length, offWidth]
    have hb2 : (beBytes posWidth (pos % 2 ^ 64)).length = 8 := by
      simp [beBytes_length, posWidth]
    refine ⟨by simp [hfull], by simp, fun _ => ?_⟩
    refine ⟨by simp [hent], ?_, ?_, ?_, ?_, ?_⟩
    · apply length_writeBytes
      simp only [List.length_append, hb1, hb2]
      omega
    · exact take_writeBytes _ _ _ hsize
    · have hx := byteSlice_writeBytes_first i.mmap
        (beBytes offWidth (off % 2 ^ 32)) (beBytes posWidth (pos % 2 ^ 64))
        i.size hsize
      rw [hb1] at hx
      rw [hx]
      show beBytes offWidth (off % 2 ^ 32) = beBytes 4 off
      rw [hoff']
      rfl
    · have hx := byteSlice_writeBytes_second i.mmap
        (beBytes offWidth (off % 2 ^ 32)) (beBytes posWidth (pos % 2 ^ 64))
        i.size hsize
      rw [hb1, hb2] at hx
      rw [hx]
      show beBytes posWidth (pos % 2 ^ 64) = beBytes 8 pos
      rw [hpos']
      rfl
    · have hx := drop_after_writeBytes i.mmap
        (beBytes offWidth (off % 2 ^ 32) ++ beBytes posWidth (pos % 2 ^ 64))
        i.size hsize
      simp only [List.length_append, hb1, hb2] at hx
      exact hx

theorem C5_index_write_witness :
    (5 : Nat) < 2 ^ 32 ∧ (77 : Nat) < 2 ^ 64 ∧
    byteSlice (index.Write ⟨List.replicate 12 0, 0⟩ 5 77).2.mmap 0 4 =
      beBytes 4 5 :=
  ⟨by decide, by decide,
    ((C5_index_write ⟨List.replicate 12 0, 0⟩ 5 77 (by decide)
      (by decide)).2.2 rfl).2.2.2.1⟩

/-- C4 counterexample: on the one-entry index holding relative offset 5 and
position 77, the source's `index.Read` applied to `n = 2^32` succeeds and
returns entry 0 (because `uint32(n) = 0`), whereas the claim's semantics
demand an end-of-data error since `(n + 1) * 12 > size`. -/
theorem C4_index_read_counterexample :
    index.Read ⟨beBytes 4 5 ++ beBytes 8 77, 12⟩ (2 ^ 32) = .ok (5, 77) ∧
    indexReadClaimed ⟨beBytes 4 5 ++ beBytes 8 77, 12⟩ (2 ^ 32) =
      .error () := by
  constructor
  · rfl
  · rfl

/-- C4 (amended): for every index state and every argument `n`, the
source's `index.Read` computes exactly the amended semantics — empty-index
error when `size = 0`, entry number truncated to `uint32` (with the `-1`
case going through the wrapping `size/12 - 1`), end-of-data error when
`(e + 1) * 12 > size` for the truncated entry number `e`, and otherwise the
4-byte and 8-byte big-endian fields at bytes `[e*12, e*12+12)`. -/
theorem C4_index_read_amended (i : index) (n : Int) :
    index.Read i n = indexReadAmended i n := by
  have hent : entWidth = 12 := rfl
  have hoffw : offWidth = 4 := rfl
  have hposw : posWidth = 8 := rfl
  simp only [index.Read, indexReadAmended, hent, hoffw, hposw]
  by_cases h0 : i.size = 0
  · simp [h0]
  · simp only [h0, if_false]
    set e : Nat :=
      (if n = -1 then u64sub (i.size / 12) 1 % 2 ^ 32
       else (n % (2 ^ 32 : Int)).toNat) with he
    by_cases hg : i.size < e * 12 + 12
    · rw [if_pos hg, if_pos (by omega)]
    · rw [if_neg hg, if_neg (by omega)]

theorem toInt64_eq_ofNat (n : Nat) (h : n < 2 ^ 63) : toInt64 n = (n : Int) := by
  unfold toInt64
  rw [Nat.mod_eq_of_lt (by omega)]
  rw [if_pos h]

theorem toInt64_last : toInt64 (2 ^ 64 - 1) = -1 := by decide

theorem u64sub_of_lt (a b : Nat) (hb : b ≤ a) (ha : a < 2 ^ 64) :
    u64sub a b = a - b := by
  unfold u64sub
  omega

theorem u64sub_add_left (b d : Nat) (h : b + d < 2 ^ 64) :
    u64sub (b + d) b = d := by
  unfold u64sub
  omega

theorem u64sub_sub_one (b : Nat) :
    u64sub (u64sub b 1) b = 2 ^ 64 - 1 := by
  unfold u64sub
  omega

theorem u64sub_succ (n b : Nat) (hn : n < 2 ^ 64)
    (hlt : u64sub n b + 1 < 2 ^ 64) :
    u64sub ((n + 1) % 2 ^ 64) b = u64sub n b + 1 := by
  unfold u64sub at *
  omega

theorem segment_append_full (s : Segment) (rec : Record)
    (h : s.index.mmap.length < s.index.size + entWidth) :
    Segment.Append s rec =
      (.error (),
        { s with store :=
            (store.Append s.store
              (Marshal { rec with Offset := s.nextOffset })).2.2 }) := by
  simp only [Segment.Append, index_write_full _ _ _ h]

theorem segment_append_room (s : Segment) (rec : Record)
    (h : ¬ s.index.mmap.length < s.index.size + entWidth) :
    Segment.Append s rec =
      (.ok s.nextOffset,
        { s with
            store :=
              (store.Append s.store
                (Marshal { rec with Offset := s.nextOffset })).2.2,
            index :=
              { mmap :=
                  writeBytes s.index.mmap s.index.size
                    (beBytes offWidth (u64sub s.nextOffset s.baseOffset % 2 ^ 32) ++
                      beBytes posWidth (s.store.size % 2 ^ 64)),
                size := s.index.size + entWidth },
            nextOffset := (s.nextOffset + 1) % 2 ^ 64 }) := by
  simp only [Segment.Append, index_write_room _ _ _ h]
  rfl

theorem index_read_empty (i : index) (inp : Int) (h : i.size = 0) :
    index.Read i inp = .error () := by
  simp [index.Read, h]

theorem index_read_neg_one (i : index) (hmul : i.size % 12 = 0)
    (h0 : i.size ≠ 0) (hcnt : i.size / 12 ≤ 2 ^ 32) :
    index.Read i (-1) =
      .ok (beVal (byteSlice i.mmap (i.size - 12) 4),
           beVal (byteSlice i.mmap (i.size - 12 + 4) 8)) := by
  have hent : entWidth = 12 := rfl
  have hoffw : offWidth = 4 := rfl
  have hposw : posWidth = 8 := rfl
  have h12 : 12 ≤ i.size := by omega
  have hdiv : 1 ≤ i.size / 12 := by omega
  have he : u64sub (i.size / 12) 1 % 2 ^ 32 = i.size / 12 - 1 := by
    unfold u64sub
    omega
  have hp : (i.size / 12 - 1) * 12 = i.size - 12 := by omega
  simp only [index.Read, hent, hoffw, hposw, if_neg h0, reduceIte]
  rw [he, hp, if_neg (by omega)]

/-- C3: opening a segment over recovered store and index states seeds
`nextOffset = baseOffset` when the index is empty, and otherwise seeds
`nextOffset = baseOffset + r + 1` where `r` is the relative offset stored
in the last (highest-indexed) index entry, under the index invariants
(`size` a multiple of 12, entry count within `uint32` range) and absent
`uint64` overflow of the sum. -/
theorem C3_newSegment_seeding (st : store) (idx : index) (base : Nat)
    (c : Config) (hmul : idx.size % 12 = 0) (hcnt : idx.size / 12 ≤ 2 ^ 32)
    (hov : base + beVal (byteSlice idx.mmap (idx.size - 12) 4) + 1 < 2 ^ 64) :
    (idx.size = 0 → (newSegment st idx base c).nextOffset = base) ∧
    (idx.size ≠ 0 →
      (newSegment st idx base c).nextOffset =
        base + beVal (byteSlice idx.mmap (idx.size - 12) 4) + 1) := by
  constructor
  · intro h0
    simp [newSegment, index_read_empty idx (-1) h0]
  · intro h0
    rw [newSegment, index_read_neg_one idx hmul h0 hcnt]
    exact Nat.mod_eq_of_lt hov

theorem C3_newSegment_seeding_witness :
    idxOne.size % 12 = 0 ∧ idxOne.size / 12 ≤ 2 ^ 32 ∧
    (newSegment ⟨[], 0⟩ idxOne 10 cfgW).nextOffset =
      10 + beVal (byteSlice idxOne.mmap (idxOne.size - 12) 4) + 1 :=
  ⟨by decide, by decide,
    (C3_newSegment_seeding ⟨[], 0⟩ idxOne 10 cfgW (by decide) (by decide)
      (by decide)).2 (by decide)⟩

/-- C6 counterexample: on a segment whose `MaxIndexBytes` (and mapped
length) is 30 — not a multiple of the 12-byte entry width — holding two
entries (`index.size = 24`), `segment.Append` fails with the index
end-of-space error (24 + 12 > 30) yet `IsMaxed` afterwards is `false`
(store far below `MaxStoreBytes`, and 24 < 30). -/
theorem C6_maxed_counterexample :
    (Segment.Append seg30 recW).1 = .error () ∧
    Segment.IsMaxed (Segment.Append seg30 recW).2 = false :=
  ⟨rfl, rfl⟩

/-- C6 (amended): whenever `segment.Append` fails because the index write
returned the end-of-space error, `IsMaxed` returns `true` afterwards,
provided `MaxIndexBytes` is a multiple of the 12-byte entry width, the
index `size` is a multiple of 12 (its invariant), and the mapped length
equals `MaxIndexBytes` (as `newIndex` arranges). -/
theorem C6_maxed_after_index_full_amended (s : Segment) (rec : Record)
    (hmul : s.index.size % 12 = 0)
    (hcfg : s.config.MaxIndexBytes % 12 = 0)
    (hlen : s.index.mmap.length = s.config.MaxIndexBytes)
    (herr : (Segment.Append s rec).1 = .error ()) :
    Segment.IsMaxed (Segment.Append s rec).2 = true := by
  have hent : entWidth = 12 := rfl
  by_cases hfull : s.index.mmap.length < s.index.size + entWidth
  · rw [segment_append_full s rec hfull]
    rw [hent] at hfull
    have hge : s.config.MaxIndexBytes ≤ s.index.size := by omega
    simp [Segment.IsMaxed, hge]
  · rw [segment_append_room s rec hfull] at herr
    simp at herr

theorem C6_maxed_after_index_full_amended_witness :
    (Segment.Append seg36 recW).1 = .error () ∧
    Segment.IsMaxed (Segment.Append seg36 recW).2 = true :=
  ⟨rfl,
    C6_maxed_after_index_full_amended seg36 recW (by decide) (by decide)
      (by decide) rfl⟩

theorem segment_append_ok_parts (s : Segment) (r : Record) (o : Nat)
    (s2 : Segment) (h : Segment.Append s r = (.ok o, s2)) :
    o = s.nextOffset ∧ s2.nextOffset = (s.nextOffset + 1) % 2 ^ 64 ∧
    s2.baseOffset = s.baseOffset ∧ s2.index.size = s.index.size + 12 ∧
    s2.config = s.config := by
  by_cases hfull : s.index.mmap.length < s.index.size + entWidth
  · rw [segment_append_full s r hfull] at h
    have h1 := congrArg Prod.fst h
    simp at h1
  · rw [segment_append_room s r hfull] at h
    have h1 := congrArg Prod.fst h
    have h2 := congrArg Prod.snd h
    simp only [Prod.fst, Prod.snd] at h1 h2
    injection h1 with h1
    cases h2
    exact ⟨h1.symm, rfl, rfl, rfl, rfl⟩

/-- C2 counterexample: on a fresh segment whose base offset is
`2^64 - 1` (reachable by configuring `InitialOffset = 2^64 - 1`), two
successful appends return the offsets `2^64 - 1` and then `0` — the
wrapping `uint64` increment of `nextOffset` — which are not strictly
increasing. -/
theorem C2_monotonic_counterexample :
    (appendAll segWrap [recW, recW]).1 = .ok [2 ^ 64 - 1, 0] ∧
    ¬ (2 ^ 64 - 1 : Nat) < 0 :=
  ⟨rfl, by omega⟩

/-- C2 (amended): for every sequence of successful appends to one segment,
provided `nextOffset` plus the number of appends stays below `2^64` (no
`uint64` wrap of the offset counter), the returned offsets are exactly
`nextOffset, nextOffset + 1, ...` — strictly increasing with no gaps, the
first being the segment's `nextOffset` at the start. -/
theorem C2_monotonic_amended (s : Segment) (rs : List Record)
    (hov : s.nextOffset + rs.length < 2 ^ 64) :
    ∀ os s1, appendAll s rs = (.ok os, s1) →
      os = (List.range rs.length).map (fun k => s.nextOffset + k) := by
  induction rs generalizing s with
  | nil =>
      intro os s1 h
      simp only [appendAll] at h
      have h1 := congrArg Prod.fst h
      simp only [Prod.fst] at h1
      injection h1 with h1
      rw [← h1]
      simp
  | cons r rs ih =>
      intro os s1 h
      simp only [appendAll] at h
      rcases happ : Segment.Append s r with ⟨res, st1⟩
      rw [happ] at h
      cases res with
      | error e => simp at h
      | ok o =>
        dsimp only at h
        rcases hrest : appendAll st1 rs with ⟨res2, st2⟩
        rw [hrest] at h
        cases res2 with
        | error e => simp at h
        | ok os2 =>
          dsimp only at h
          have h1 := congrArg Prod.fst h
          simp only [Prod.fst] at h1
          injection h1 with h1
          obtain ⟨ho, hnext, -, -, -⟩ :=
            segment_append_ok_parts s r o st1 happ
          have hlen : (r :: rs).length = rs.length + 1 := by simp
          have hlt : s.nextOffset + 1 < 2 ^ 64 := by
            rw [hlen] at hov
            omega
          have hst1 : st1.nextOffset = s.nextOffset + 1 := by
            rw [hnext, Nat.mod_eq_of_lt hlt]
          have hov2 : st1.nextOffset + rs.length < 2 ^ 64 := by
            rw [hst1]
            rw [hlen] at hov
            omega
          have hos2 := ih st1 hov2 os2 st2 hrest
          rw [← h1, ho, hos2, hst1, hlen, List.range_succ_eq_map,
            List.map_cons, List.map_map]
          congr 1
          apply List.map_congr_left
          intro a _
          simp only [Function.comp_apply]
          omega

theorem C2_monotonic_amended_witness :
    ([0, 1] : List Nat) =
      (List.range 2).map (fun k => segW.nextOffset + k) := by
  have h := C2_monotonic_amended segW [recW, recW] (by decide)
  exact h [0, 1] (appendAll segW [recW, recW]).2 rfl

/-- C7 counterexample: constructing a segment at base offset 0 over a
one-entry index whose entry stores relative offset 5 (the shape a crashed
or foreign index file can have) seeds `nextOffset = 6`, so
`nextOffset - baseOffset = 6` differs from `index.size / 12 = 1` — the
invariant does not hold after every segment construction. -/
theorem C7_invariant_counterexample :
    ¬ u64sub (newSegment ⟨[], 0⟩ idxBad 0 cfgW).nextOffset
        (newSegment ⟨[], 0⟩ idxBad 0 cfgW).baseOffset =
      (newSegment ⟨[], 0⟩ idxBad 0 cfgW).index.size / 12 := by
  decide

/-- C7 (amended): the bookkeeping invariant
`nextOffset - baseOffset = index.size / 12` (with the wrapping `uint64`
subtraction the source computes) holds after construction provided the last
index entry stores relative offset `size/12 - 1` — as every index the
segment itself wrote does — together with the index invariants and absence
of `uint64` overflow; it is preserved by every `segment.Append`, successful
or failed; and a failed append changes neither `nextOffset` nor the
index. -/
theorem C7_invariant_amended :
    (∀ st idx base c, idx.size % 12 = 0 → idx.size / 12 ≤ 2 ^ 32 →
      base + idx.size / 12 < 2 ^ 64 →
      (idx.size ≠ 0 →
        beVal (byteSlice idx.mmap (idx.size - 12) 4) = idx.size / 12 - 1) →
      u64sub (newSegment st idx base c).nextOffset
          (newSegment st idx base c).baseOffset =
        (newSegment st idx base c).index.size / 12) ∧
    (∀ s rec, s.nextOffset < 2 ^ 64 → s.index.size / 12 + 1 < 2 ^ 64 →
      u64sub s.nextOffset s.baseOffset = s.index.size / 12 →
      u64sub (Segment.Append s rec).2.nextOffset
          (Segment.Append s rec).2.baseOffset =
        (Segment.Append s rec).2.index.size / 12) ∧
    (∀ s rec, (Segment.Append s rec).1 = .error () →
      (Segment.Append s rec).2.nextOffset = s.nextOffset ∧
      (Segment.Append s rec).2.index = s.index) := by
  refine ⟨?_, ?_, ?_⟩
  · intro st idx base c hmul hcnt hov hlast
    by_cases h0 : idx.size = 0
    · rw [newSegment, index_read_empty idx (-1) h0]
      simp only []
      rw [h0]
      unfold u64sub
      omega
    · rw [newSegment, index_read_neg_one idx hmul h0 hcnt]
      simp only []
      rw [hlast h0]
      have h12 : 12 ≤ idx.size := by omega
      have hdiv : 1 ≤ idx.size / 12 := by omega
      have heq : base + (idx.size / 12 - 1) + 1 = base + idx.size / 12 := by
        omega
      rw [heq, Nat.mod_eq_of_lt hov]
      exact u64sub_add_left base (idx.size / 12) hov
  · intro s rec hn hbound hinv
    by_cases hfull : s.index.mmap.length < s.index.size + entWidth
    · rw [segment_append_full s rec hfull]
      exact hinv
    · rw [segment_append_room s rec hfull]
      simp only []
      have hlt : u64sub s.nextOffset s.baseOffset + 1 < 2 ^ 64 := by
        rw [hinv]
        omega
      rw [u64sub_succ s.nextOffset s.baseOffset hn hlt, hinv]
      have : s.index.size + entWidth = s.index.size + 12 := rfl
      rw [this]
      omega
  · intro s rec herr
    by_cases hfull : s.index.mmap.length < s.index.size + entWidth
    · rw [segment_append_full s rec hfull]
      exact ⟨rfl, rfl⟩
    · rw [segment_append_room s rec hfull] at herr
      simp at herr

theorem C7_invariant_amended_witness :
    u64sub (newSegment ⟨[], 0⟩ idxOne 5 cfgW).nextOffset
        (newSegment ⟨[], 0⟩ idxOne 5 cfgW).baseOffset =
      (newSegment ⟨[], 0⟩ idxOne 5 cfgW).index.size / 12 :=
  C7_invariant_amended.1 ⟨[], 0⟩ idxOne 5 cfgW (by decide) (by decide)
    (by decide) (fun _ => by decide)

theorem beVal_beBytes4 (n : Nat) : beVal (beBytes 4 n) = n % 2 ^ 32 := by
  rw [beVal_beBytes]
  norm_num

theorem beVal_beBytes8 (n : Nat) : beVal (beBytes 8 n) = n % 2 ^ 64 := by
  rw [beVal_beBytes]
  norm_num

theorem unmarshal_marshal (r : Record) :
    Unmarshal (Marshal r) = ⟨r.Value, r.Offset % 2 ^ 64⟩ := by
  have h1 : (beBytes 8 (r.Offset % 2 ^ 64) ++ r.Value).drop 8 = r.Value :=
    List.drop_left' (beBytes_length 8 _)
  have h2 : (beBytes 8 (r.Offset % 2 ^ 64) ++ r.Value).take 8 =
      beBytes 8 (r.Offset % 2 ^ 64) :=
    List.take_left' (beBytes_length 8 _)
  have h3 : r.Offset % 2 ^ 64 % 2 ^ 64 = r.Offset % 2 ^ 64 := by omega
  unfold Unmarshal Marshal
  rw [h1, h2, beVal_beBytes8, h3]

theorem store_read_after_append (st : store) (p : List Nat)
    (hsz : st.size = st.data.length)
    (hb : st.size + 8 + p.length < 2 ^ 63) :
    store.Read (store.Append st p).2.2 st.size = .ok p := by
  have hlw : lenWidth = 8 := rfl
  simp only [store.Read, store.Append, hlw]
  have h1 : ¬ toInt64 st.size < 0 := by
    rw [toInt64_eq_ofNat st.size (by omega)]
    omega
  have hlen' : (st.data ++ beBytes 8 (p.length % 2 ^ 64) ++ p).length =
      st.size + 8 + p.length := by
    simp only [List.length_append, beBytes_length]
    omega
  have h2 : ¬ (st.data ++ beBytes 8 (p.length % 2 ^ 64) ++ p).length <
      st.size + 8 := by
    rw [hlen']
    omega
  have hslice1 : byteSlice (st.data ++ beBytes 8 (p.length % 2 ^ 64) ++ p)
      st.size 8 = beBytes 8 (p.length % 2 ^ 64) := by
    rw [List.append_assoc, byteSlice_append st.data _ st.size 8 hsz.symm]
    exact List.take_left' (beBytes_length 8 _)
  have hsz1 : beVal (byteSlice (st.data ++ beBytes 8 (p.length % 2 ^ 64) ++ p)
      st.size 8) = p.length := by
    rw [hslice1, beVal_beBytes8]
    omega
  have h3 : ¬ toInt64 (st.size + 8) < 0 := by
    rw [toInt64_eq_ofNat _ (by omega)]
    omega
  have h4 : ¬ (st.data ++ beBytes 8 (p.length % 2 ^ 64) ++ p).length <
      st.size + 8 + p.length := by
    rw [hlen']
    omega
  have hslice2 : byteSlice (st.data ++ beBytes 8 (p.length % 2 ^ 64) ++ p)
      (st.size + 8) p.length = p := by
    have hA : (st.data ++ beBytes 8 (p.length % 2 ^ 64)).length =
        st.size + 8 := by
      simp only [List.length_append, beBytes_length]
      omega
    rw [byteSlice_append _ p _ _ hA]
    exact List.take_length p
  rw [if_neg h1, if_neg h2]
  simp only [hsz1, if_neg h3, if_neg h4, hslice2]

theorem index_read_after_write (i : index) (off pos : Nat) (inp : Int)
    (hmul : i.size % 12 = 0) (hcnt : i.size / 12 < 2 ^ 32)
    (hsize : i.size ≤ i.mmap.length)
    (hinp : inp = ((i.size / 12 : Nat) : Int) ∨ inp = -1) :
    index.Read
      ⟨writeBytes i.mmap i.size
        (beBytes offWidth (off % 2 ^ 32) ++ beBytes posWidth (pos % 2 ^ 64)),
       i.size + entWidth⟩ inp =
      .ok (off % 2 ^ 32, pos % 2 ^ 64) := by
  have hent : entWidth = 12 := rfl
  have hoffw : offWidth = 4 := rfl
  have hposw : posWidth = 8 := rfl
  have hdvd : 12 ∣ i.size := Nat.dvd_of_mod_eq_zero hmul
  have hq : i.size / 12 * 12 = i.size := Nat.div_mul_cancel hdvd
  have hf := byteSlice_writeBytes_first i.mmap
    (beBytes offWidth (off % 2 ^ 32)) (beBytes posWidth (pos % 2 ^ 64))
    i.size hsize
  rw [beBytes_length, hoffw] at hf
  have hs := byteSlice_writeBytes_second i.mmap
    (beBytes offWidth (off % 2 ^ 32)) (beBytes posWidth (pos % 2 ^ 64))
    i.size hsize
  rw [beBytes_length, beBytes_length, hoffw, hposw] at hs
  rw [hposw] at hf
  have hm1 : off % 2 ^ 32 % 2 ^ 32 = off % 2 ^ 32 := by omega
  have hm2 : pos % 2 ^ 64 % 2 ^ 64 = pos % 2 ^ 64 := by omega
  simp only [index.Read, hent, hoffw, hposw]
  rcases hinp with hI | hI <;> subst hI
  · have hne : ¬ (((i.size / 12 : Nat) : Int) = -1) := by omega
    have he : ((((i.size / 12 : Nat) : Nat) : Int) % (2 ^ 32 : Int)).toNat =
        i.size / 12 := by omega
    simp only [if_neg (by omega : ¬ i.size + 12 = 0), if_neg hne, he, hq,
      if_neg (by omega : ¬ i.size + 12 < i.size + 12), hf, hs,
      beVal_beBytes4, beVal_beBytes8, hm1, hm2]
  · have he2 : u64sub ((i.size + 12) / 12) 1 % 2 ^ 32 = i.size / 12 := by
      have hd : (i.size + 12) / 12 = i.size / 12 + 1 := by omega
      rw [hd]
      unfold u64sub
      omega
    simp only [if_neg (by omega : ¬ i.size + 12 = 0), reduceIte, he2, hq,
      if_neg (by omega : ¬ i.size + 12 < i.size + 12), hf, hs,
      beVal_beBytes4, beVal_beBytes8, hm1, hm2]

/-- C1: if `segment.Append` succeeds on record `rec` and returns offset
`o`, then `segment.Read o` on the post-append segment succeeds and returns
a record whose value is the appended payload and whose offset field is `o`
— under the segment's quiescent-state invariants (`nextOffset` in `uint64`
range and matching the entry count, index size a multiple of 12 with the
count in `uint32` range, store size matching its content) and in-range
store positions. -/
theorem C1_segment_round_trip (s : Segment) (rec : Record) (o : Nat)
    (s2 : Segment)
    (hnext : s.nextOffset < 2 ^ 64)
    (hinv : u64sub s.nextOffset s.baseOffset = s.index.size / 12)
    (hmul : s.index.size % 12 = 0)
    (hcnt : s.index.size / 12 < 2 ^ 32)
    (hsz : s.store.size = s.store.data.length)
    (hbound : s.store.size + 16 + rec.Value.length < 2 ^ 63)
    (happ : Segment.Append s rec = (.ok o, s2)) :
    Segment.Read s2 o = .ok ⟨rec.Value, o⟩ := by
  by_cases hfull : s.index.mmap.length < s.index.size + entWidth
  · rw [segment_append_full s rec hfull] at happ
    have h1 := congrArg Prod.fst happ
    simp at h1
  · rw [segment_append_room s rec hfull] at happ
    have hent : entWidth = 12 := rfl
    have h1 := congrArg Prod.fst happ
    have h2 := congrArg Prod.snd happ
    simp only [Prod.fst, Prod.snd] at h1 h2
    injection h1 with h1
    subst h1
    subst h2
    have hsizele : s.index.size ≤ s.index.mmap.length := by
      rw [hent] at hfull
      omega
    have hplen : (Marshal { rec with Offset := s.nextOffset }).length =
        8 + rec.Value.length := by
      simp [Marshal, List.length_append, beBytes_length]
    have hb : s.store.size + 8 +
        (Marshal { rec with Offset := s.nextOffset }).length < 2 ^ 63 := by
      rw [hplen]
      omega
    simp only [Segment.Read]
    rw [hinv, toInt64_eq_ofNat (s.index.size / 12) (by omega)]
    rw [index_read_after_write s.index (s.index.size / 12) s.store.size
      _ hmul hcnt hsizele (Or.inl rfl)]
    dsimp only
    have hspos : s.store.size % 2 ^ 64 = s.store.size := by omega
    rw [hspos, store_read_after_append s.store _ hsz hb]
    dsimp only
    rw [unmarshal_marshal]
    dsimp only
    rw [Nat.mod_eq_of_lt hnext]

theorem C1_segment_round_trip_witness :
    Segment.Read (Segment.Append segW recW).2 0 = .ok ⟨recW.Value, 0⟩ :=
  C1_segment_round_trip segW recW 0 (Segment.Append segW recW).2
    (by decide) (by decide) (by decide) (by decide) (by decide) (by decide)
    rfl

/-- C9: on a segment with at least one index entry — here, immediately
after a successful append, so the last record is the appended one —
`segment.Read (baseOffset - 1)` (the `uint64` value `baseOffset - 1` wraps)
does not fail with an out-of-range error: the wrapping subtraction
`off - baseOffset` yields `2^64 - 1`, whose `int64` conversion is `-1`,
which `index.Read` treats as a request for the last entry, so the read
succeeds and returns the segment's last record. -/
theorem C9_offset_underflow_reads_last (s : Segment) (rec : Record)
    (o : Nat) (s2 : Segment)
    (hnext : s.nextOffset < 2 ^ 64)
    (hmul : s.index.size % 12 = 0)
    (hcnt : s.index.size / 12 < 2 ^ 32)
    (hsz : s.store.size = s.store.data.length)
    (hbound : s.store.size + 16 + rec.Value.length < 2 ^ 63)
    (happ : Segment.Append s rec = (.ok o, s2)) :
    Segment.Read s2 (u64sub s2.baseOffset 1) = .ok ⟨rec.Value, o⟩ := by
  by_cases hfull : s.index.mmap.length < s.index.size + entWidth
  · rw [segment_append_full s rec hfull] at happ
    have h1 := congrArg Prod.fst happ
    simp at h1
  · rw [segment_append_room s rec hfull] at happ
    have hent : entWidth = 12 := rfl
    have h1 := congrArg Prod.fst happ
    have h2 := congrArg Prod.snd happ
    simp only [Prod.fst, Prod.snd] at h1 h2
    injection h1 with h1
    subst h1
    subst h2
    have hsizele : s.index.size ≤ s.index.mmap.length := by
      rw [hent] at hfull
      omega
    have hplen : (Marshal { rec with Offset := s.nextOffset }).length =
        8 + rec.Value.length := by
      simp [Marshal, List.length_append, beBytes_length]
    have hb : s.store.size + 8 +
        (Marshal { rec with Offset := s.nextOffset }).length < 2 ^ 63 := by
      rw [hplen]
      omega
    simp only [Segment.Read]
    rw [u64sub_sub_one, toInt64_last]
    rw [index_read_after_write s.index
      (u64sub s.nextOffset s.baseOffset) s.store.size
      _ hmul hcnt hsizele (Or.inr rfl)]
    dsimp only
    have hspos : s.store.size % 2 ^ 64 = s.store.size := by omega
    rw [hspos, store_read_after_append s.store _ hsz hb]
    dsimp only
    rw [unmarshal_marshal]
    dsimp only
    rw [Nat.mod_eq_of_lt hnext]

theorem C9_offset_underflow_reads_last_witness :
    Segment.Read (Segment.Append segW recW).2
        (u64sub (Segment.Append segW recW).2.baseOffset 1) =
      .ok ⟨recW.Value, 0⟩ :=
  C9_offset_underflow_reads_last segW recW 0 (Segment.Append segW recW).2
    (by decide) (by decide) (by decide) (by decide) (by decide) rfl
